import Mathlib

/-!
Verification of the instance-aware path forwarding and uninstancing core of
`pxr/usd/lib/usdUtils/pipeline.cpp` (`UsdUtilsGetPrimAtPathWithForwarding`
and `UsdUtilsUninstancePrimAtPath`).

The two functions under scrutiny live in `src/pxr/usd/lib/usdUtils/pipeline.cpp`
and are translated here line by line.  Their collaborators (`SdfPath`,
`UsdStage`, `UsdPrim`) are not part of the sources under review, so they are
modelled from the specification: a path is an ordered sequence of name
components plus a root marker (absolute / relative / empty), and a stage is a
finite map from absolute paths to prim records carrying the instancing flag
and the prototype ("master") path.  `SetInstanceable(false)` follows the
spec's description: the prototype's content becomes composed locally at the
instance's own path.

Recursion in the C++ code is general recursion; here it is rendered with an
explicit fuel parameter, `none` standing for exhaustion of the fuel, so that
termination is a provable statement rather than an assumption.  A `TF_VERIFY`
failure (the internal-consistency diagnostic) is recorded in a `fatalError`
flag threaded through the results.
-/

/-- Modelled from the spec: a scene-graph path is an ordered sequence of
hierarchical name components plus a root marker.  `abs cs` is an absolute
path (`abs []` being `AbsoluteRootPath`, i.e. `/`), `rel cs` a relative path
(`rel []` being `ReflexiveRelativePath`, i.e. `.`), and `empty` the
distinguished `EmptyPath`. -/
inductive SdfPath where
  | empty : SdfPath
  | abs : List String → SdfPath
  | rel : List String → SdfPath
deriving DecidableEq, Repr

/-- The distinguished absolute root path `/`. -/
def SdfPath.absoluteRootPath : SdfPath := SdfPath.abs []

/-- The distinguished reflexive relative path `.`. -/
def SdfPath.reflexiveRelativePath : SdfPath := SdfPath.rel []

/-- Modelled from the spec: `GetParentPath` drops the last name component.
The spec does not describe parents of component-free paths (the resolver's
ancestor walk stops at the root and empty sentinels before asking); the
choices below make the operation total. -/
def SdfPath.getParentPath : SdfPath → SdfPath
  | .empty => .empty
  | .abs [] => .abs []
  | .abs (c :: cs) => .abs ((c :: cs).dropLast)
  | .rel [] => .empty
  | .rel (c :: cs) => .rel ((c :: cs).dropLast)

/-- Modelled from the spec: a path with at least one name component
identifies a prim; the root, `.` and the empty path do not. -/
def SdfPath.isPrimPath : SdfPath → Bool
  | .abs (_ :: _) => true
  | .rel (_ :: _) => true
  | _ => false

/-- Modelled from the spec: `ReplacePrefix old new` replaces the leading
occurrence of `old` by `new` when `old` actually prefixes the path, and
returns the path unchanged otherwise.  Replacing by the reflexive relative
path yields the suffix relative to `old`. -/
def SdfPath.replacePrefix (p pre np : SdfPath) : SdfPath :=
  match p, pre, np with
  | .abs ps, .abs qs, .abs ns =>
      if qs.isPrefixOf ps then .abs (ns ++ ps.drop qs.length) else .abs ps
  | .abs ps, .abs qs, .rel ns =>
      if qs.isPrefixOf ps then .rel (ns ++ ps.drop qs.length) else .abs ps
  | .rel ps, .rel qs, .abs ns =>
      if qs.isPrefixOf ps then .abs (ns ++ ps.drop qs.length) else .rel ps
  | .rel ps, .rel qs, .rel ns =>
      if qs.isPrefixOf ps then .rel (ns ++ ps.drop qs.length) else .rel ps
  | p, _, _ => p

/-- Modelled from the spec: appending a relative path concatenates the
component sequences; appending an absolute or empty path is a coding error
and yields the empty path. -/
def SdfPath.appendPath : SdfPath → SdfPath → SdfPath
  | .abs ps, .rel qs => .abs (ps ++ qs)
  | .rel ps, .rel qs => .rel (ps ++ qs)
  | .empty, .rel _ => .empty
  | _, .abs _ => .empty
  | _, .empty => .empty

/-- Number of parent steps needed to exhaust a path; used as fuel for the
ancestor walk. -/
def SdfPath.size : SdfPath → Nat
  | .empty => 0
  | .abs cs => cs.length
  | .rel cs => cs.length + 1

/-- `a` strictly prefixes `p` within the same path family (the ancestor
relation of the scene-graph hierarchy). -/
def SdfPath.isStrictAncestorOf : SdfPath → SdfPath → Bool
  | .abs qs, .abs ps => qs.isPrefixOf ps && decide (qs.length < ps.length)
  | .rel qs, .rel ps => qs.isPrefixOf ps && decide (qs.length < ps.length)
  | _, _ => false

/-- Modelled from the spec: the per-prim record owned by the stage — the
instancing flag, and for instances the path of the prototype (master) whose
content the instance shares. -/
structure PrimData where
  isInstance : Bool
  masterPath : Option (List String)
deriving DecidableEq, Repr

/-- Modelled from the spec: a prim handle, as returned by `GetPrimAtPath` —
the prim's own absolute path together with its record. -/
structure UsdPrim where
  primPath : List String
  data : PrimData
deriving DecidableEq, Repr

/-- Modelled from the spec: the stage is the scene-graph container; the
composed scene is a finite map from absolute paths (component lists) to prim
records.  Content of an instance is not present under the instance's path —
it is reachable only through the prototype's path. -/
structure UsdStage where
  prims : List (List String × PrimData)
deriving DecidableEq, Repr

/-- First-match lookup in the stage's prim map. -/
def lookupPrim (cs : List String) : List (List String × PrimData) → Option PrimData
  | [] => none
  | e :: rest => if e.1 = cs then some e.2 else lookupPrim cs rest

/-- Modelled from the spec: `GetPrimAtPath` returns the prim at an absolute
path, or the invalid prim (here `none`); non-absolute paths address no prim. -/
def UsdStage.getPrimAtPath (st : UsdStage) : SdfPath → Option UsdPrim
  | .abs cs => (lookupPrim cs st.prims).map (fun d => ⟨cs, d⟩)
  | _ => none

/-- Modelled from the spec: `GetMaster` dereferences an instance prim's
prototype, yielding the prototype prim or the invalid prim. -/
def UsdStage.getMaster (st : UsdStage) (p : UsdPrim) : Option UsdPrim :=
  match p.data.masterPath with
  | some m => st.getPrimAtPath (SdfPath.abs m)
  | none => none

/-- Rewrite of the prim map that clears the instancing flag on every entry
at path `b`. -/
def clearFlagAt (b : List String) (l : List (List String × PrimData)) :
    List (List String × PrimData) :=
  l.map (fun e => if e.1 = b then (e.1, ⟨false, none⟩) else e)

/-- The prototype's content transplanted below the de-instanced prim: every
prim strictly below master path `m` reappears at the corresponding path
below `b`, keeping its record (so nested instances stay instances of their
own prototypes). -/
def composedCopies (b m : List String) (l : List (List String × PrimData)) :
    List (List String × PrimData) :=
  l.filterMap (fun e =>
    if m.isPrefixOf e.1 && (m != e.1) then
      some (b ++ e.1.drop m.length, e.2)
    else none)

/-- Modelled from the spec: `SetInstanceable(false)` on the prim at `b`
converts the shared instance into an independently composed subtree — the
flag is cleared and the prototype's content is now composed locally below
`b` instead of being shared. -/
def UsdStage.setInstanceableFalse (st : UsdStage) (b : List String) : UsdStage :=
  match lookupPrim b st.prims with
  | none => st
  | some d =>
    match d.isInstance, d.masterPath with
    | true, some m => ⟨clearFlagAt b st.prims ++ composedCopies b m st.prims⟩
    | _, _ => ⟨clearFlagAt b st.prims⟩

/-- The ancestor walk of `UsdUtilsGetPrimAtPathWithForwarding` (lines
217–227 of `pipeline.cpp`), fuelled: starting from `p`, repeatedly take the
parent and look it up, stopping at the first existing prim or upon reaching
the absolute root or the empty path. -/
def findValidAncestorAux (st : UsdStage) : Nat → SdfPath → SdfPath × Option UsdPrim
  | 0, p => (p, none)
  | Nat.succ n, p =>
    if p = SdfPath.absoluteRootPath ∨ p = SdfPath.empty then (p, none)
    else
      match st.getPrimAtPath p.getParentPath with
      | some prim => (p.getParentPath, some prim)
      | none => findValidAncestorAux st n p.getParentPath

/-- The ancestor walk with its exact fuel: `SdfPath.size` parent steps
always reach the root or the empty path. -/
def findValidAncestor (st : UsdStage) (p : SdfPath) : SdfPath × Option UsdPrim :=
  findValidAncestorAux st p.size p

/-- The spec's "depth of indirection" invariant, witnessed by a rank
function: everything reachable inside an instance's prototype subtree sits
strictly lower in rank than the instance itself, so forwarding always makes
structural progress. -/
def RankOk (st : UsdStage) (rk : List String → Nat) : Prop :=
  ∀ e ∈ st.prims, e.2.isInstance = true →
    ∀ m, e.2.masterPath = some m →
      ∀ e' ∈ st.prims, m <+: e'.1 → rk e'.1 < rk e.1

/-- All ranks of the stage's prims lie below `R`. -/
def RankBound (st : UsdStage) (rk : List String → Nat) (R : Nat) : Prop :=
  ∀ e ∈ st.prims, rk e.1 < R

/-- Every instance prim carries a prototype path that addresses an existing
prim (the spec's prototype-dereference guarantee). -/
def MastersExist (st : UsdStage) : Prop :=
  ∀ e ∈ st.prims, e.2.isInstance = true →
    ∃ m, e.2.masterPath = some m ∧ ∃ d, lookupPrim m st.prims = some d

/-- The spec's invariant that an instance prim's subtree content is never
stored directly under the instance: no prim exists strictly below an
instance's path. -/
def NoContentUnderInstances (st : UsdStage) : Prop :=
  ∀ e ∈ st.prims, e.2.isInstance = true →
    ∀ e' ∈ st.prims, e.1 <+: e'.1 → e'.1 = e.1

/-- A stage is well formed up to nesting depth `R` when some rank function
below `R` witnesses the spec's structural-progress invariant, prototypes
resolve, and no content is stored under instances. -/
def WellFormedUpTo (st : UsdStage) (R : Nat) : Prop :=
  ∃ rk, RankOk st rk ∧ RankBound st rk R ∧ MastersExist st ∧
    NoContentUnderInstances st

/-- Transport of a rank function through de-instancing at `b` with master
`m`: transplanted copies below `b` inherit the rank of their source below
`m`. -/
def liftRank (b m : List String) (rk : List String → Nat) : List String → Nat :=
  fun k => if b <+: k ∧ k ≠ b then rk (m ++ k.drop b.length) else rk k

/-- Outcome of the resolver: the returned prim (`none` for the invalid
prim), the stage after the call (the resolver is a pure query and never
changes it, which is a theorem below, not a definitional shortcut: the
stage is threaded through every branch exactly as the C++ call tree does),
and whether a `TF_VERIFY` diagnostic fired. -/
structure ResolveOut where
  result : Option UsdPrim
  stage : UsdStage
  fatalError : Bool
deriving DecidableEq, Repr

/-- `UsdUtilsGetPrimAtPathWithForwarding` (pipeline.cpp lines 210–244),
fuelled; `none` means the fuel ran out.  Fast path; ancestor walk; if the
walk's end is a prim path the found ancestor must be an instance (else
invalid); its master is fetched under `TF_VERIFY` (failure records the
diagnostic and yields the invalid prim); the call recurses on the master's
path extended by the instance-relative suffix. -/
def resolveFuel : Nat → UsdStage → SdfPath → Option ResolveOut
  | 0, _, _ => none
  | Nat.succ n, st, path =>
    match st.getPrimAtPath path with
    | some p => some ⟨some p, st, false⟩
    | none =>
      match findValidAncestor st path with
      | (validAncestorPath, validAncestor) =>
        if validAncestorPath.isPrimPath then
          match validAncestor with
          | some anc =>
            if anc.data.isInstance then
              match st.getMaster anc with
              | some master =>
                resolveFuel n st ((SdfPath.abs master.primPath).appendPath
                  (path.replacePrefix validAncestorPath SdfPath.reflexiveRelativePath))
              | none => some ⟨none, st, true⟩
            else some ⟨none, st, false⟩
          | none => some ⟨none, st, true⟩
        else some ⟨none, st, false⟩

/-- Outcome of the uninstancer: the returned prim, the stage after the call,
whether a `TF_VERIFY` diagnostic fired, and the list of paths whose
instanceable flag was cleared (one per recursion round). -/
structure UninstanceOut where
  result : Option UsdPrim
  stage : UsdStage
  fatalError : Bool
  cleared : List (List String)
deriving DecidableEq, Repr

/-- `UsdUtilsUninstancePrimAtPath` (pipeline.cpp lines 246–279), fuelled
(`u` bounds the uninstancing rounds, `rf` is handed to each embedded
resolver call).  Fast path; bail out (invalid) if forwarding cannot reach a
prim; re-walk the ancestors; at a prim path the found ancestor is checked by
`TF_VERIFY` to be an instance (failure records the diagnostic and yields the
invalid prim); clear its instanceable flag and recurse on the original
path. -/
def uninstanceFuel : Nat → Nat → UsdStage → SdfPath → Option UninstanceOut
  | 0, _, _, _ => none
  | Nat.succ n, rf, st, path =>
    match st.getPrimAtPath path with
    | some p => some ⟨some p, st, false, []⟩
    | none =>
      match resolveFuel rf st path with
      | none => none
      | some rOut =>
        match rOut.result with
        | none => some ⟨none, st, rOut.fatalError, []⟩
        | some _ =>
          match findValidAncestor st path with
          | (validAncestorPath, validAncestor) =>
            if validAncestorPath.isPrimPath then
              match validAncestor with
              | some anc =>
                if anc.data.isInstance then
                  (uninstanceFuel n rf (st.setInstanceableFalse anc.primPath) path).map
                    (fun u => ⟨u.result, u.stage, rOut.fatalError || u.fatalError,
                               anc.primPath :: u.cleared⟩)
                else some ⟨none, st, true, []⟩
              | none => some ⟨none, st, true, []⟩
            else some ⟨none, st, rOut.fatalError, []⟩

/-! ## Concrete example stages used to exercise the theorems -/

/-- Example stage: an instance at `/A` whose prototype `/M` contains a child
`/M/x`. -/
def stW1 : UsdStage :=
  ⟨[(["A"], ⟨true, some ["M"]⟩), (["M"], ⟨false, none⟩),
    (["M", "x"], ⟨false, none⟩)]⟩

/-- The example query path `/A/x`. -/
def pW1 : SdfPath := SdfPath.abs ["A", "x"]

/-- The stage `stW1` after uninstancing `/A`: the flag is cleared and the
prototype content is composed locally. -/
def stW1u : UsdStage :=
  ⟨[(["A"], ⟨false, none⟩), (["M"], ⟨false, none⟩),
    (["M", "x"], ⟨false, none⟩), (["A", "x"], ⟨false, none⟩)]⟩

/-- The prim obtained by uninstancing `/A/x` on `stW1`. -/
def wPrim1 : UsdPrim := ⟨["A", "x"], ⟨false, none⟩⟩

/-- Full outcome of `uninstanceFuel 2 3 stW1 pW1`. -/
def wOut1 : UninstanceOut := ⟨some wPrim1, stW1u, false, [["A"]]⟩

/-- Outcome of resolving `/A/x` on `stW1`: the prim inside the prototype. -/
def wROut1 : ResolveOut := ⟨some ⟨["M", "x"], ⟨false, none⟩⟩, stW1, false⟩

/-- Example stage with no instancing anywhere: a single plain prim `/B`. -/
def stW4 : UsdStage := ⟨[(["B"], ⟨false, none⟩)]⟩

/-- Example stage with a corrupted composition: `/A` is an instance whose
master path `/Z` addresses nothing. -/
def stW5 : UsdStage := ⟨[(["A"], ⟨true, some ["Z"]⟩)]⟩

/-- A rank function witnessing the nesting-depth invariant of `stW1`. -/
def rkW1 : List String → Nat := fun cs => if cs = ["A"] then 1 else 0

/-! ## Basic lemmas about lookup and the ancestor walk -/

lemma lookupPrim_mem {cs : List String} {d : PrimData} :
    ∀ {l : List (List String × PrimData)}, lookupPrim cs l = some d → (cs, d) ∈ l := by
  intro l
  induction l with
  | nil => intro h; simp [lookupPrim] at h
  | cons e rest ih =>
    intro h
    rw [lookupPrim] at h
    by_cases he : e.1 = cs
    · rw [if_pos he] at h
      obtain rfl : e.2 = d := by exact Option.some.inj h
      rw [← he]
      exact List.mem_cons_self _ _
    · rw [if_neg he] at h
      exact List.mem_cons_of_mem _ (ih h)

lemma getPrimAtPath_eq_some {st : UsdStage} {p : SdfPath} {prim : UsdPrim}
    (h : st.getPrimAtPath p = some prim) :
    ∃ cs, p = SdfPath.abs cs ∧ prim.primPath = cs ∧
      lookupPrim cs st.prims = some prim.data := by
  cases p with
  | empty => simp [UsdStage.getPrimAtPath] at h
  | rel cs => simp [UsdStage.getPrimAtPath] at h
  | abs cs =>
    simp only [UsdStage.getPrimAtPath, Option.map_eq_some'] at h
    obtain ⟨d, hd, he⟩ := h
    refine ⟨cs, rfl, ?_, ?_⟩
    · rw [← he]
    · rw [← he]; exact hd

lemma getPrimAtPath_of_lookup {st : UsdStage} {cs : List String} {d : PrimData}
    (h : lookupPrim cs st.prims = some d) :
    st.getPrimAtPath (SdfPath.abs cs) = some ⟨cs, d⟩ := by
  simp [UsdStage.getPrimAtPath, h]

lemma size_getParentPath_lt {p : SdfPath}
    (h : ¬(p = SdfPath.absoluteRootPath ∨ p = SdfPath.empty)) :
    p.getParentPath.size < p.size := by
  cases p with
  | empty => exact absurd (Or.inr rfl) h
  | abs cs =>
    cases cs with
    | nil => exact absurd (Or.inl rfl) h
    | cons c cs' => simp [SdfPath.getParentPath, SdfPath.size]
  | rel cs =>
    cases cs with
    | nil => simp [SdfPath.getParentPath, SdfPath.size]
    | cons c cs' =>
      simp [SdfPath.getParentPath, SdfPath.size]

lemma findValidAncestorAux_found {st : UsdStage} :
    ∀ {n : Nat} {p q : SdfPath} {anc : UsdPrim},
      findValidAncestorAux st n p = (q, some anc) →
      ∃ ps qs, p = SdfPath.abs ps ∧ q = SdfPath.abs qs ∧ anc.primPath = qs ∧
        lookupPrim qs st.prims = some anc.data ∧ qs <+: ps ∧
        qs.length < ps.length := by
  intro n
  induction n with
  | zero => intro p q anc h; simp [findValidAncestorAux] at h
  | succ n ih =>
    intro p q anc h
    by_cases hre : p = SdfPath.absoluteRootPath ∨ p = SdfPath.empty
    · rw [findValidAncestorAux, if_pos hre] at h
      simp at h
    · rw [findValidAncestorAux, if_neg hre] at h
      rcases hl : st.getPrimAtPath p.getParentPath with _ | prim
      · rw [hl] at h
        obtain ⟨ps', qs, hp', hq, hpp, hlk, hpre, hlen⟩ := ih h
        cases p with
        | empty => exact absurd (Or.inr rfl) hre
        | rel cs =>
          cases cs with
          | nil => simp [SdfPath.getParentPath] at hp'
          | cons c cs' => simp [SdfPath.getParentPath] at hp'
        | abs cs =>
          cases cs with
          | nil => exact absurd (Or.inl rfl) hre
          | cons c cs' =>
            have hps' : ps' = (c :: cs').dropLast := by
              have : SdfPath.abs ((c :: cs').dropLast) = SdfPath.abs ps' := by
                simpa [SdfPath.getParentPath] using hp'
              exact (SdfPath.abs.inj this).symm
            refine ⟨c :: cs', qs, rfl, hq, hpp, hlk, ?_, ?_⟩
            · exact hpre.trans (hps' ▸ List.dropLast_prefix _)
            · have h1 : ps'.length < (c :: cs').length := by
                rw [hps']
                simp [List.length_dropLast]
              omega
      · rw [hl] at h
        have hq : p.getParentPath = q := congrArg Prod.fst h
        have hanc : some prim = some anc := congrArg Prod.snd h
        obtain rfl : prim = anc := Option.some.inj hanc
        obtain ⟨qs, hqp, hpp, hlk⟩ := getPrimAtPath_eq_some hl
        cases p with
        | empty => exact absurd (Or.inr rfl) hre
        | rel cs =>
          cases cs with
          | nil => simp [SdfPath.getParentPath] at hqp
          | cons c cs' => simp [SdfPath.getParentPath] at hqp
        | abs cs =>
          cases cs with
          | nil => exact absurd (Or.inl rfl) hre
          | cons c cs' =>
            have hqs : qs = (c :: cs').dropLast := by
              have : SdfPath.abs ((c :: cs').dropLast) = SdfPath.abs qs := by
                simpa [SdfPath.getParentPath] using hqp
              exact (SdfPath.abs.inj this).symm
            refine ⟨c :: cs', qs, rfl, hq ▸ hqp.symm ▸ rfl, hpp, hlk, ?_, ?_⟩
            · exact hqs ▸ List.dropLast_prefix _
            · rw [hqs]
              simp [List.length_dropLast]

lemma findValidAncestorAux_none {st : UsdStage} :
    ∀ {n : Nat} {p q : SdfPath}, p.size ≤ n →
      findValidAncestorAux st n p = (q, none) →
      q = SdfPath.absoluteRootPath ∨ q = SdfPath.empty := by
  intro n
  induction n with
  | zero =>
    intro p q hs h
    obtain rfl : p = q := congrArg Prod.fst h
    cases p with
    | empty => exact Or.inr rfl
    | abs cs =>
      cases cs with
      | nil => exact Or.inl rfl
      | cons c cs' => simp [SdfPath.size] at hs
    | rel cs => simp [SdfPath.size] at hs
  | succ n ih =>
    intro p q hs h
    by_cases hre : p = SdfPath.absoluteRootPath ∨ p = SdfPath.empty
    · rw [findValidAncestorAux, if_pos hre] at h
      obtain rfl : p = q := congrArg Prod.fst h
      exact hre
    · rw [findValidAncestorAux, if_neg hre] at h
      rcases hl : st.getPrimAtPath p.getParentPath with _ | prim
      · rw [hl] at h
        exact ih (by have := size_getParentPath_lt hre; omega) h
      · rw [hl] at h
        simp at h

lemma getParentPath_abs {l : List String} (h : l ≠ []) :
    (SdfPath.abs l).getParentPath = SdfPath.abs l.dropLast := by
  rcases l with _ | ⟨c, cs⟩
  · exact absurd rfl h
  · rfl

lemma findValidAncestorAux_below {st : UsdStage} {ms : List String} {d : PrimData}
    (hm : lookupPrim ms st.prims = some d) :
    ∀ {n : Nat} {s : List String}, s ≠ [] → s.length ≤ n →
      ∃ qs anc, findValidAncestorAux st n (SdfPath.abs (ms ++ s)) =
        (SdfPath.abs qs, some anc) ∧ ms <+: qs := by
  intro n
  induction n with
  | zero =>
    intro s hs hl
    exact absurd (List.length_eq_zero.mp (Nat.le_zero.mp hl)) hs
  | succ n ih =>
    intro s hs hl
    have hcons : ms ++ s ≠ [] := by
      intro hc
      exact hs (List.append_eq_nil.mp hc).2
    have hne : ¬(SdfPath.abs (ms ++ s) = SdfPath.absoluteRootPath ∨
        SdfPath.abs (ms ++ s) = SdfPath.empty) := by
      intro hc
      rcases hc with hc | hc
      · exact hcons (SdfPath.abs.inj hc)
      · exact SdfPath.noConfusion hc
    rw [findValidAncestorAux, if_neg hne]
    have hpar : (SdfPath.abs (ms ++ s)).getParentPath =
        SdfPath.abs (ms ++ s.dropLast) := by
      rw [getParentPath_abs hcons, List.dropLast_append_of_ne_nil _ hs]
    rw [hpar]
    by_cases hd : s.dropLast = []
    · rw [hd, List.append_nil, getPrimAtPath_of_lookup hm]
      exact ⟨ms, ⟨ms, d⟩, rfl, List.prefix_refl ms⟩
    · rcases hlk : st.getPrimAtPath (SdfPath.abs (ms ++ s.dropLast)) with _ | prim
      · refine ih hd ?_
        have : s.dropLast.length < s.length := by
          have : s.length ≠ 0 := by
            intro hc; exact hs (List.length_eq_zero.mp hc)
          simp [List.length_dropLast]
          omega
        omega
      · exact ⟨ms ++ s.dropLast, prim, rfl, List.prefix_append ms _⟩

lemma resolveFuel_stage_eq : ∀ {n : Nat} {st : UsdStage} {p : SdfPath}
    {out : ResolveOut}, resolveFuel n st p = some out → out.stage = st := by
  intro n
  induction n with
  | zero => intro st p out h; simp [resolveFuel] at h
  | succ n ih =>
    intro st p out h
    rw [resolveFuel] at h
    split at h
    · rw [← Option.some.inj h]
    · split at h
      split at h
      · split at h
        · split at h
          · split at h
            · exact ih h
            · rw [← Option.some.inj h]
          · rw [← Option.some.inj h]
        · rw [← Option.some.inj h]
      · rw [← Option.some.inj h]

lemma resolveFuel_success_walk {n : Nat} {st : UsdStage} {p : SdfPath}
    {out : ResolveOut} (h : resolveFuel n st p = some out)
    (hr : out.result.isSome) (hfast : st.getPrimAtPath p = none) :
    ∃ q anc, findValidAncestor st p = (q, some anc) ∧ q.isPrimPath = true ∧
      anc.data.isInstance = true ∧ (st.getMaster anc).isSome := by
  cases n with
  | zero => simp [resolveFuel] at h
  | succ n =>
    rw [resolveFuel] at h
    simp only [hfast] at h
    rcases hfa : findValidAncestor st p with ⟨vap, va⟩
    simp only [hfa] at h
    split at h
    · rename_i hpp
      split at h
      · rename_i anc
        split at h
        · rename_i hinst
          split at h
          · rename_i master hma
            exact ⟨vap, anc, rfl, hpp, hinst, by rw [hma]; rfl⟩
          · obtain rfl := Option.some.inj h
            simp at hr
        · obtain rfl := Option.some.inj h
          simp at hr
      · obtain rfl := Option.some.inj h
        simp at hr
    · obtain rfl := Option.some.inj h
      simp at hr

lemma replacePrefix_appendPath_eq {ps qs m : List String} (hpre : qs <+: ps) :
    (SdfPath.abs m).appendPath
      ((SdfPath.abs ps).replacePrefix (SdfPath.abs qs) SdfPath.reflexiveRelativePath) =
    SdfPath.abs (m ++ ps.drop qs.length) := by
  have hb : qs.isPrefixOf ps = true := List.isPrefixOf_iff_prefix.mpr hpre
  simp [SdfPath.replacePrefix, SdfPath.reflexiveRelativePath, hb, SdfPath.appendPath]

lemma getMaster_eq_some {st : UsdStage} {anc master : UsdPrim}
    (h : st.getMaster anc = some master) :
    ∃ m, anc.data.masterPath = some m ∧ master.primPath = m ∧
      lookupPrim m st.prims = some master.data := by
  rw [UsdStage.getMaster] at h
  rcases hmp : anc.data.masterPath with _ | m
  · rw [hmp] at h
    exact absurd h (by simp)
  · rw [hmp] at h
    obtain ⟨cs, hcs, hmp2, hlk⟩ := getPrimAtPath_eq_some h
    obtain rfl : m = cs := SdfPath.abs.inj hcs
    exact ⟨m, rfl, hmp2, hlk⟩

lemma resolveFuel_isSome_of_rank {st : UsdStage} {rk : List String → Nat}
    (hrk : RankOk st rk) :
    ∀ (n : Nat) (p : SdfPath),
      (∀ qs anc, findValidAncestor st p = (SdfPath.abs qs, some anc) →
        anc.data.isInstance = true → rk qs < n) →
      (resolveFuel (n + 1) st p).isSome := by
  intro n
  induction n with
  | zero =>
    intro p hb
    rw [resolveFuel]
    rcases h1 : st.getPrimAtPath p with _ | pr
    · rcases hfa : findValidAncestor st p with ⟨vap, va⟩
      rcases va with _ | anc
      · by_cases hpp : vap.isPrimPath = true <;> simp [hpp]
      · by_cases hpp : vap.isPrimPath = true
        · by_cases hinst : anc.data.isInstance = true
          · obtain ⟨ps, qs, hp, hq, _, _, _, _⟩ :=
              findValidAncestorAux_found
                (show findValidAncestorAux st p.size p = (vap, some anc) from hfa)
            subst hq
            exact absurd (hb qs anc hfa hinst) (Nat.not_lt_zero _)
          · simp [hpp, hinst]
        · simp [hpp]
    · simp
  | succ n ih =>
    intro p hb
    rw [resolveFuel]
    rcases h1 : st.getPrimAtPath p with _ | pr
    · rcases hfa : findValidAncestor st p with ⟨vap, va⟩
      rcases va with _ | anc
      · by_cases hpp : vap.isPrimPath = true <;> simp [hpp]
      · by_cases hpp : vap.isPrimPath = true
        · by_cases hinst : anc.data.isInstance = true
          · rcases hma : st.getMaster anc with _ | master
            · simp [hpp, hinst, hma]
            · simp only [hpp, hinst, if_true, hma]
              obtain ⟨ps, qs, hp, hq, hpath, hlk, hpre, hlen⟩ :=
                findValidAncestorAux_found
                  (show findValidAncestorAux st p.size p = (vap, some anc) from hfa)
              obtain ⟨m, hmp, hmaster, hmlk⟩ := getMaster_eq_some hma
              subst hp
              subst hq
              rw [hmaster, replacePrefix_appendPath_eq hpre]
              set s := ps.drop qs.length with hs
              have hsne : s ≠ [] := by
                rw [hs]
                intro hc
                have := List.length_drop qs.length ps ▸ congrArg List.length hc
                simp at this
                omega
              apply ih
              intro qs' anc' hfa' hinst'
              have hslen : s.length ≤ (SdfPath.abs (m ++ s)).size := by
                simp [SdfPath.size]
              obtain ⟨qs0, anc0, hfound, hbelow⟩ :=
                findValidAncestorAux_below hmlk hsne hslen
              have heq : (SdfPath.abs qs0, some anc0) =
                  (SdfPath.abs qs', some anc') := by
                rw [← hfound, ← hfa']
                rfl
              have hqq : qs0 = qs' := SdfPath.abs.inj (congrArg Prod.fst heq)
              have hbelow' : m <+: qs' := hqq ▸ hbelow
              have hmem' : (qs', anc'.data) ∈ st.prims := by
                obtain ⟨ps2, qs2, _, hq2, hpath2, hlk2, _, _⟩ :=
                  findValidAncestorAux_found
                    (show findValidAncestorAux st (SdfPath.abs (m ++ s)).size
                      (SdfPath.abs (m ++ s)) = (SdfPath.abs qs', some anc') from hfa')
                obtain rfl : qs2 = qs' := SdfPath.abs.inj hq2.symm
                exact lookupPrim_mem hlk2
              have hmem : (qs, anc.data) ∈ st.prims := lookupPrim_mem hlk
              have hlt : rk qs' < rk qs :=
                hrk (qs, anc.data) hmem hinst m hmp (qs', anc'.data) hmem' hbelow'
              have hzs : rk qs < n + 1 := hb qs anc hfa hinst
              omega
          · simp [hpp, hinst]
        · simp [hpp]
    · simp

/-! ## Lemmas about the de-instancing stage mutation -/

lemma append_ne_left {b t : List String} (ht : t ≠ []) : b ++ t ≠ b := by
  intro h
  have := congrArg List.length h
  simp at this
  exact ht this

lemma liftRank_orig {b m k : List String} {rk : List String → Nat}
    (h : ¬(b <+: k ∧ k ≠ b)) : liftRank b m rk k = rk k := by
  rw [liftRank, if_neg h]

lemma liftRank_self {b m : List String} {rk : List String → Nat} :
    liftRank b m rk b = rk b := by
  rw [liftRank, if_neg]
  intro hc
  exact hc.2 rfl

lemma liftRank_copy {b m t : List String} {rk : List String → Nat}
    (ht : t ≠ []) : liftRank b m rk (b ++ t) = rk (m ++ t) := by
  rw [liftRank, if_pos ⟨List.prefix_append b t, append_ne_left ht⟩,
    List.drop_left]

lemma lookupPrim_append_some {cs : List String} {d : PrimData}
    {l₁ l₂ : List (List String × PrimData)} (h : lookupPrim cs l₁ = some d) :
    lookupPrim cs (l₁ ++ l₂) = some d := by
  induction l₁ with
  | nil => simp [lookupPrim] at h
  | cons e rest ih =>
    rw [lookupPrim] at h
    rw [List.cons_append, lookupPrim]
    by_cases he : e.1 = cs
    · rw [if_pos he] at h ⊢
      exact h
    · rw [if_neg he] at h ⊢
      exact ih h

lemma lookupPrim_clearFlagAt_self {b : List String} {d : PrimData} :
    ∀ {l : List (List String × PrimData)}, lookupPrim b l = some d →
      lookupPrim b (clearFlagAt b l) = some ⟨false, none⟩ := by
  intro l
  induction l with
  | nil => intro h; simp [lookupPrim] at h
  | cons e rest ih =>
    intro h
    rw [lookupPrim] at h
    rw [clearFlagAt, List.map_cons]
    by_cases he : e.1 = b
    · rw [if_pos he, lookupPrim, if_pos he]
    · rw [if_neg he, lookupPrim, if_neg he]
      rw [if_neg he] at h
      exact ih h

lemma lookupPrim_clearFlagAt_ne {k b : List String} (hk : k ≠ b) :
    ∀ {l : List (List String × PrimData)},
      lookupPrim k (clearFlagAt b l) = lookupPrim k l := by
  intro l
  induction l with
  | nil => rfl
  | cons e rest ih =>
    rw [clearFlagAt, List.map_cons, lookupPrim, lookupPrim]
    by_cases he : e.1 = b
    · rw [if_pos he]
      have h1 : ((e.1, (⟨false, none⟩ : PrimData)).1 = k) = (e.1 = k) := by
        simp
      by_cases hek : e.1 = k
      · exact absurd (hek.symm.trans he) hk
      · rw [if_neg (by simpa using hek), if_neg hek]
        exact ih
    · rw [if_neg he]
      by_cases hek : e.1 = k
      · rw [if_pos hek, if_pos hek]
      · rw [if_neg hek, if_neg hek]
        exact ih

lemma of_mem_clearFlagAt {b : List String} {l : List (List String × PrimData)}
    {e : List String × PrimData} (h : e ∈ clearFlagAt b l) :
    (∃ e₀ ∈ l, e.1 = e₀.1) ∧ (e.2.isInstance = true → e ∈ l ∧ e.1 ≠ b) := by
  rw [clearFlagAt, List.mem_map] at h
  obtain ⟨e₀, he₀, hfe⟩ := h
  by_cases hb : e₀.1 = b
  · rw [if_pos hb] at hfe
    refine ⟨⟨e₀, he₀, by rw [← hfe]⟩, ?_⟩
    intro hinst
    rw [← hfe] at hinst
    simp at hinst
  · rw [if_neg hb] at hfe
    subst hfe
    exact ⟨⟨e₀, he₀, rfl⟩, fun _ => ⟨he₀, hb⟩⟩

lemma mem_clearFlagAt_of_mem {b : List String}
    {l : List (List String × PrimData)} {e : List String × PrimData}
    (he : e ∈ l) (hb : e.1 ≠ b) : e ∈ clearFlagAt b l := by
  rw [clearFlagAt, List.mem_map]
  exact ⟨e, he, by rw [if_neg hb]⟩

lemma of_mem_composedCopies {b m : List String}
    {l : List (List String × PrimData)} {e : List String × PrimData}
    (h : e ∈ composedCopies b m l) :
    ∃ t, t ≠ [] ∧ e.1 = b ++ t ∧ (m ++ t, e.2) ∈ l := by
  rw [composedCopies, List.mem_filterMap] at h
  obtain ⟨e₀, he₀, hfe⟩ := h
  split at hfe
  · rename_i hc
    simp only [Bool.and_eq_true, List.isPrefixOf_iff_prefix, bne_iff_ne] at hc
    obtain ⟨hpre, hne⟩ := hc
    obtain ⟨t, ht⟩ := hpre
    have htne : t ≠ [] := by
      intro hc2
      rw [hc2, List.append_nil] at ht
      exact hne ht
    obtain rfl := Option.some.inj hfe
    refine ⟨t, htne, ?_, ?_⟩
    · simp only [← ht, List.drop_left]
    · have : (m ++ t, e₀.2) = e₀ := by
        rw [ht]
      rw [this]
      exact he₀
  · exact absurd hfe (by simp)

lemma wellFormed_clearOnly {st : UsdStage} {R : Nat} {rk : List String → Nat}
    {b : List String} (hrk : RankOk st rk) (hrb : RankBound st rk R)
    (hme : MastersExist st) (hnc : NoContentUnderInstances st)
    (hb : (lookupPrim b st.prims).isSome) :
    RankOk ⟨clearFlagAt b st.prims⟩ rk ∧
    RankBound ⟨clearFlagAt b st.prims⟩ rk R ∧
    MastersExist ⟨clearFlagAt b st.prims⟩ ∧
    NoContentUnderInstances ⟨clearFlagAt b st.prims⟩ := by
  refine ⟨?_, ?_, ?_, ?_⟩
  · intro e he heInst m0 hm0 e' he' hpre'
    obtain ⟨_, hinst2⟩ := of_mem_clearFlagAt he
    obtain ⟨heOrig, _⟩ := hinst2 heInst
    obtain ⟨⟨e₀', he₀', hkey'⟩, _⟩ := of_mem_clearFlagAt he'
    rw [hkey']
    exact hrk e heOrig heInst m0 hm0 e₀' he₀' (hkey' ▸ hpre')
  · intro e he
    obtain ⟨⟨e₀, he₀, hkey⟩, _⟩ := of_mem_clearFlagAt he
    rw [hkey]
    exact hrb e₀ he₀
  · intro e he heInst
    obtain ⟨_, hinst2⟩ := of_mem_clearFlagAt he
    obtain ⟨heOrig, _⟩ := hinst2 heInst
    obtain ⟨m0, hm0, d0, hd0⟩ := hme e heOrig heInst
    by_cases hkb : m0 = b
    · subst hkb
      rcases hd : lookupPrim m0 st.prims with _ | d2
      · rw [hd] at hb
        simp at hb
      · exact ⟨m0, hm0, ⟨false, none⟩, lookupPrim_clearFlagAt_self hd⟩
    · exact ⟨m0, hm0, d0, by rw [lookupPrim_clearFlagAt_ne hkb]; exact hd0⟩
  · intro e he heInst e' he' hpre'
    obtain ⟨_, hinst2⟩ := of_mem_clearFlagAt he
    obtain ⟨heOrig, _⟩ := hinst2 heInst
    obtain ⟨⟨e₀', he₀', hkey'⟩, _⟩ := of_mem_clearFlagAt he'
    rw [hkey'] at hpre' ⊢
    exact hnc e heOrig heInst e₀' he₀' hpre'

lemma wellFormed_setInstanceableFalse {st : UsdStage} {R : Nat}
    (h : WellFormedUpTo st R) (b : List String) :
    WellFormedUpTo (st.setInstanceableFalse b) R := by
  obtain ⟨rk, hrk, hrb, hme, hnc⟩ := h
  rcases hlb : lookupPrim b st.prims with _ | db
  · have hst : st.setInstanceableFalse b = st := by
      rw [UsdStage.setInstanceableFalse, hlb]
    rw [hst]
    exact ⟨rk, hrk, hrb, hme, hnc⟩
  · have hbs : (lookupPrim b st.prims).isSome := by rw [hlb]; rfl
    rcases db with ⟨bi, bm⟩
    cases bi with
    | false =>
      have hst : st.setInstanceableFalse b = ⟨clearFlagAt b st.prims⟩ := by
        simp [UsdStage.setInstanceableFalse, hlb]
      rw [hst]
      obtain ⟨h1, h2, h3, h4⟩ := wellFormed_clearOnly hrk hrb hme hnc hbs
      exact ⟨rk, h1, h2, h3, h4⟩
    | true =>
      cases bm with
      | none =>
        have hst : st.setInstanceableFalse b = ⟨clearFlagAt b st.prims⟩ := by
          simp [UsdStage.setInstanceableFalse, hlb]
        rw [hst]
        obtain ⟨h1, h2, h3, h4⟩ := wellFormed_clearOnly hrk hrb hme hnc hbs
        exact ⟨rk, h1, h2, h3, h4⟩
      | some m =>
        have hst : st.setInstanceableFalse b =
            ⟨clearFlagAt b st.prims ++ composedCopies b m st.prims⟩ := by
          simp [UsdStage.setInstanceableFalse, hlb]
        rw [hst]
        have hmemb : (b, (⟨true, some m⟩ : PrimData)) ∈ st.prims :=
          lookupPrim_mem hlb
        have hNoB : ∀ e' ∈ st.prims, b <+: e'.1 → e'.1 = b := by
          intro e' he' hp
          exact hnc _ hmemb rfl _ he' hp
        have hrkB : ∀ e' ∈ st.prims, m <+: e'.1 → rk e'.1 < rk b := by
          intro e' he' hp
          exact hrk _ hmemb rfl m rfl _ he' hp
        have hlift_orig : ∀ e₀ ∈ st.prims, liftRank b m rk e₀.1 = rk e₀.1 := by
          intro e₀ he₀
          by_cases hb2 : e₀.1 = b
          · rw [hb2, liftRank_self]
          · refine liftRank_orig ?_
            intro hc
            exact hb2 (hNoB e₀ he₀ hc.1)
        refine ⟨liftRank b m rk, ?_, ?_, ?_, ?_⟩
        · intro e he heInst m0 hm0 e' he' hpre'
          rcases List.mem_append.mp he with hecl | heco
          · obtain ⟨_, hinst2⟩ := of_mem_clearFlagAt hecl
            obtain ⟨heOrig, hebne⟩ := hinst2 heInst
            have hrkE : liftRank b m rk e.1 = rk e.1 := hlift_orig e heOrig
            rcases List.mem_append.mp he' with he'cl | he'co
            · obtain ⟨⟨e₀', he₀', hkey'⟩, _⟩ := of_mem_clearFlagAt he'cl
              rw [hrkE, hkey', hlift_orig e₀' he₀']
              exact hrk e heOrig heInst m0 hm0 e₀' he₀' (hkey' ▸ hpre')
            · obtain ⟨t₂, ht₂ne, hkey₂, hsrc₂⟩ := of_mem_composedCopies he'co
              rw [hrkE, hkey₂, liftRank_copy ht₂ne]
              have hm0b : m0 <+: b := by
                rcases List.prefix_or_prefix_of_prefix (hkey₂ ▸ hpre')
                    (List.prefix_append b t₂) with h1 | h1
                · exact h1
                · obtain ⟨m0', hm0', d0, hd0⟩ := hme e heOrig heInst
                  have hmeq : m0' = m0 := Option.some.inj (hm0'.symm.trans hm0)
                  rw [hmeq] at hd0
                  have h2 : m0 = b := hNoB (m0, d0) (lookupPrim_mem hd0) h1
                  rw [h2]
              have h1 : rk b < rk e.1 := hrk e heOrig heInst m0 hm0 _ hmemb hm0b
              have h2 : rk (m ++ t₂) < rk b := hrkB _ hsrc₂ (List.prefix_append m t₂)
              omega
          · obtain ⟨t, htne, hkey, hsrc⟩ := of_mem_composedCopies heco
            have hrkE : liftRank b m rk e.1 = rk (m ++ t) := by
              rw [hkey, liftRank_copy htne]
            have hsrcRk : ∀ e'' ∈ st.prims, m0 <+: e''.1 → rk e''.1 < rk (m ++ t) := by
              intro e'' he'' hp
              exact hrk (m ++ t, e.2) hsrc heInst m0 hm0 e'' he'' hp
            rcases List.mem_append.mp he' with he'cl | he'co
            · obtain ⟨⟨e₀', he₀', hkey'⟩, _⟩ := of_mem_clearFlagAt he'cl
              rw [hrkE, hkey', hlift_orig e₀' he₀']
              exact hsrcRk e₀' he₀' (hkey' ▸ hpre')
            · obtain ⟨t₂, ht₂ne, hkey₂, hsrc₂⟩ := of_mem_composedCopies he'co
              rw [hrkE, hkey₂, liftRank_copy ht₂ne]
              have hm0b : m0 <+: b := by
                rcases List.prefix_or_prefix_of_prefix (hkey₂ ▸ hpre')
                    (List.prefix_append b t₂) with h1 | h1
                · exact h1
                · obtain ⟨m0', hm0', d0, hd0⟩ := hme (m ++ t, e.2) hsrc heInst
                  have hmeq : m0' = m0 := Option.some.inj (hm0'.symm.trans hm0)
                  rw [hmeq] at hd0
                  have h2 : m0 = b := hNoB (m0, d0) (lookupPrim_mem hd0) h1
                  rw [h2]
              have h1 : rk b < rk (m ++ t) := hsrcRk _ hmemb hm0b
              have h2 : rk (m ++ t₂) < rk b := hrkB _ hsrc₂ (List.prefix_append m t₂)
              omega
        · intro e he
          rcases List.mem_append.mp he with hecl | heco
          · obtain ⟨⟨e₀, he₀, hkey⟩, _⟩ := of_mem_clearFlagAt hecl
            rw [hkey, hlift_orig e₀ he₀]
            exact hrb e₀ he₀
          · obtain ⟨t, htne, hkey, hsrc⟩ := of_mem_composedCopies heco
            rw [hkey, liftRank_copy htne]
            exact hrb _ hsrc
        · intro e he heInst
          have hlknew : ∀ k d0, lookupPrim k st.prims = some d0 →
              ∃ d1, lookupPrim k
                (clearFlagAt b st.prims ++ composedCopies b m st.prims) = some d1 := by
            intro k d0 hk
            by_cases hkb : k = b
            · subst hkb
              exact ⟨⟨false, none⟩,
                lookupPrim_append_some (lookupPrim_clearFlagAt_self hk)⟩
            · exact ⟨d0, lookupPrim_append_some
                (by rw [lookupPrim_clearFlagAt_ne hkb]; exact hk)⟩
          rcases List.mem_append.mp he with hecl | heco
          · obtain ⟨_, hinst2⟩ := of_mem_clearFlagAt hecl
            obtain ⟨heOrig, _⟩ := hinst2 heInst
            obtain ⟨m0, hm0, d0, hd0⟩ := hme e heOrig heInst
            obtain ⟨d1, hd1⟩ := hlknew m0 d0 hd0
            exact ⟨m0, hm0, d1, hd1⟩
          · obtain ⟨t, htne, hkey, hsrc⟩ := of_mem_composedCopies heco
            obtain ⟨m0, hm0, d0, hd0⟩ := hme (m ++ t, e.2) hsrc heInst
            obtain ⟨d1, hd1⟩ := hlknew m0 d0 hd0
            exact ⟨m0, hm0, d1, hd1⟩
        · intro e he heInst e' he' hpre'
          rcases List.mem_append.mp he with hecl | heco
          · obtain ⟨_, hinst2⟩ := of_mem_clearFlagAt hecl
            obtain ⟨heOrig, hebne⟩ := hinst2 heInst
            rcases List.mem_append.mp he' with he'cl | he'co
            · obtain ⟨⟨e₀', he₀', hkey'⟩, _⟩ := of_mem_clearFlagAt he'cl
              rw [hkey'] at hpre' ⊢
              exact hnc e heOrig heInst e₀' he₀' hpre'
            · obtain ⟨t₂, ht₂ne, hkey₂, hsrc₂⟩ := of_mem_composedCopies he'co
              exfalso
              rw [hkey₂] at hpre'
              rcases List.prefix_or_prefix_of_prefix hpre'
                  (List.prefix_append b t₂) with h1 | h1
              · exact hebne ((hnc e heOrig heInst _ hmemb h1).symm)
              · exact hebne (hNoB e heOrig h1)
          · obtain ⟨t, htne, hkey, hsrc⟩ := of_mem_composedCopies heco
            rcases List.mem_append.mp he' with he'cl | he'co
            · obtain ⟨⟨e₀', he₀', hkey'⟩, _⟩ := of_mem_clearFlagAt he'cl
              exfalso
              rw [hkey, hkey'] at hpre'
              have hb' : b <+: e₀'.1 := (List.prefix_append b t).trans hpre'
              have hbeq : e₀'.1 = b := hNoB e₀' he₀' hb'
              rw [hbeq] at hpre'
              have hlen := hpre'.length_le
              rw [List.length_append] at hlen
              have ht0 : t.length = 0 := by omega
              exact htne (List.length_eq_zero.mp ht0)
            · obtain ⟨t₂, ht₂ne, hkey₂, hsrc₂⟩ := of_mem_composedCopies he'co
              rw [hkey, hkey₂] at hpre' ⊢
              have ht12 : t <+: t₂ := (List.prefix_append_right_inj b).mp hpre'
              have hm12 : m ++ t <+: m ++ t₂ :=
                (List.prefix_append_right_inj m).mpr ht12
              have heq2 := hnc (m ++ t, e.2) hsrc heInst (m ++ t₂, e'.2) hsrc₂ hm12
              have ht21 : t₂ = t := List.append_cancel_left heq2
              rw [ht21]

lemma lookupPrim_setInstanceableFalse_self {st : UsdStage} {b : List String}
    {d : PrimData} (h : lookupPrim b st.prims = some d) :
    lookupPrim b (st.setInstanceableFalse b).prims = some ⟨false, none⟩ := by
  rcases d with ⟨di, dm⟩
  cases di with
  | false =>
    have hst : st.setInstanceableFalse b = ⟨clearFlagAt b st.prims⟩ := by
      simp [UsdStage.setInstanceableFalse, h]
    rw [hst]
    exact lookupPrim_clearFlagAt_self h
  | true =>
    cases dm with
    | none =>
      have hst : st.setInstanceableFalse b = ⟨clearFlagAt b st.prims⟩ := by
        simp [UsdStage.setInstanceableFalse, h]
      rw [hst]
      exact lookupPrim_clearFlagAt_self h
    | some m =>
      have hst : st.setInstanceableFalse b =
          ⟨clearFlagAt b st.prims ++ composedCopies b m st.prims⟩ := by
        simp [UsdStage.setInstanceableFalse, h]
      rw [hst]
      exact lookupPrim_append_some (lookupPrim_clearFlagAt_self h)

lemma lookupPrim_setInstanceableFalse_ne {st : UsdStage} {b k : List String}
    {d : PrimData} (h : lookupPrim k st.prims = some d) (hk : k ≠ b) :
    lookupPrim k (st.setInstanceableFalse b).prims = some d := by
  rcases hlb : lookupPrim b st.prims with _ | db
  · have hst : st.setInstanceableFalse b = st := by
      rw [UsdStage.setInstanceableFalse, hlb]
    rw [hst]
    exact h
  · rcases db with ⟨bi, bm⟩
    cases bi with
    | false =>
      have hst : st.setInstanceableFalse b = ⟨clearFlagAt b st.prims⟩ := by
        simp [UsdStage.setInstanceableFalse, hlb]
      rw [hst]
      rw [show (⟨clearFlagAt b st.prims⟩ : UsdStage).prims = clearFlagAt b st.prims from rfl,
        lookupPrim_clearFlagAt_ne hk]
      exact h
    | true =>
      cases bm with
      | none =>
        have hst : st.setInstanceableFalse b = ⟨clearFlagAt b st.prims⟩ := by
          simp [UsdStage.setInstanceableFalse, hlb]
        rw [hst]
        rw [show (⟨clearFlagAt b st.prims⟩ : UsdStage).prims = clearFlagAt b st.prims from rfl,
          lookupPrim_clearFlagAt_ne hk]
        exact h
      | some m =>
        have hst : st.setInstanceableFalse b =
            ⟨clearFlagAt b st.prims ++ composedCopies b m st.prims⟩ := by
          simp [UsdStage.setInstanceableFalse, hlb]
        rw [hst]
        exact lookupPrim_append_some
          (by rw [lookupPrim_clearFlagAt_ne hk]; exact h)

lemma uninstanceFuel_preserves_cleared :
    ∀ {u rf : Nat} {st : UsdStage} {p : SdfPath} {out : UninstanceOut}
      {a : List String},
      lookupPrim a st.prims = some ⟨false, none⟩ →
      uninstanceFuel u rf st p = some out →
      lookupPrim a out.stage.prims = some ⟨false, none⟩ := by
  intro u
  induction u with
  | zero => intro rf st p out a ha h; simp [uninstanceFuel] at h
  | succ u ih =>
    intro rf st p out a ha h
    rw [uninstanceFuel] at h
    rcases h1 : st.getPrimAtPath p with _ | pr
    · simp only [h1] at h
      rcases h2 : resolveFuel rf st p with _ | rOut
      · simp only [h2] at h
        exact Option.noConfusion h
      · simp only [h2] at h
        rcases h3 : rOut.result with _ | r
        · simp only [h3] at h
          rw [← Option.some.inj h]
          exact ha
        · simp only [h3] at h
          rcases hfa : findValidAncestor st p with ⟨vap, va⟩
          simp only [hfa] at h
          split at h
          · rename_i hpp
            split at h
            · rename_i anc
              split at h
              · rename_i hinst
                rw [Option.map_eq_some'] at h
                obtain ⟨u', hu', hfu⟩ := h
                obtain ⟨ps, qs, hp, hq, hpath, hlk, _, _⟩ :=
                  findValidAncestorAux_found
                    (show findValidAncestorAux st p.size p = (vap, some anc) from hfa)
                have hane : a ≠ anc.primPath := by
                  intro hc
                  have h5 : lookupPrim anc.primPath st.prims = some anc.data := by
                    rw [hpath]
                    exact hlk
                  rw [← hc] at h5
                  have h6 : (⟨false, none⟩ : PrimData) = anc.data :=
                    Option.some.inj (ha.symm.trans h5)
                  rw [← h6] at hinst
                  simp at hinst
                have ha' := lookupPrim_setInstanceableFalse_ne ha hane
                have hia := ih ha' hu'
                rw [← hfu]
                exact hia
              · rw [← Option.some.inj h]
                exact ha
            · rw [← Option.some.inj h]
              exact ha
          · rw [← Option.some.inj h]
            exact ha
    · simp only [h1] at h
      rw [← Option.some.inj h]
      exact ha

lemma uninstanceFuel_success_getPrim :
    ∀ {u rf : Nat} {st : UsdStage} {p : SdfPath} {out : UninstanceOut}
      {r : UsdPrim},
      uninstanceFuel u rf st p = some out → out.result = some r →
      out.stage.getPrimAtPath p = some r ∧
      ∀ a ∈ out.cleared, lookupPrim a out.stage.prims = some ⟨false, none⟩ := by
  intro u
  induction u with
  | zero => intro rf st p out r h hr; simp [uninstanceFuel] at h
  | succ u ih =>
    intro rf st p out r h hr
    rw [uninstanceFuel] at h
    rcases h1 : st.getPrimAtPath p with _ | pr
    · simp only [h1] at h
      rcases h2 : resolveFuel rf st p with _ | rOut
      · simp only [h2] at h
        exact Option.noConfusion h
      · simp only [h2] at h
        rcases h3 : rOut.result with _ | r0
        · simp only [h3] at h
          rw [← Option.some.inj h] at hr
          simp at hr
        · simp only [h3] at h
          rcases hfa : findValidAncestor st p with ⟨vap, va⟩
          simp only [hfa] at h
          split at h
          · split at h
            · rename_i anc
              split at h
              · rw [Option.map_eq_some'] at h
                obtain ⟨u', hu', hfu⟩ := h
                have hr' : u'.result = some r := by
                  rw [← hfu] at hr
                  exact hr
                obtain ⟨hstage, hclr⟩ := ih hu' hr'
                obtain ⟨ps, qs, hp, hq, hpath, hlk, _, _⟩ :=
                  findValidAncestorAux_found
                    (show findValidAncestorAux st p.size p = (vap, some anc) from hfa)
                have hself : lookupPrim anc.primPath
                    (st.setInstanceableFalse anc.primPath).prims =
                    some ⟨false, none⟩ := by
                  rw [hpath]
                  exact lookupPrim_setInstanceableFalse_self hlk
                have hhead := uninstanceFuel_preserves_cleared hself hu'
                rw [← hfu]
                refine ⟨hstage, ?_⟩
                intro a haMem
                rcases List.mem_cons.mp haMem with rfl | haTail
                · exact hhead
                · exact hclr a haTail
              · rw [← Option.some.inj h] at hr
                simp at hr
            · rw [← Option.some.inj h] at hr
              simp at hr
          · rw [← Option.some.inj h] at hr
            simp at hr
    · simp only [h1] at h
      rw [← Option.some.inj h] at hr
      have hpr : pr = r := Option.some.inj hr
      rw [← Option.some.inj h]
      refine ⟨?_, ?_⟩
      · rw [h1, hpr]
      · intro a haMem
        simp at haMem

lemma uninstanceFuel_isSome {R : Nat} :
    ∀ (k : Nat) (st : UsdStage) (p : SdfPath) (u : Nat),
      WellFormedUpTo st R → k < u →
      (∀ qs anc, st.getPrimAtPath p = none →
        findValidAncestor st p = (SdfPath.abs qs, some anc) →
        anc.data.isInstance = true → p.size ≤ qs.length + k) →
      ∃ out, uninstanceFuel u (R + 1) st p = some out ∧
        out.cleared.length ≤ k := by
  intro k
  induction k using Nat.strong_induction_on with
  | _ k ih =>
    intro st p u hwf hku hgap
    obtain ⟨u₀, rfl⟩ : ∃ u₀, u = u₀ + 1 := ⟨u - 1, by omega⟩
    rw [uninstanceFuel]
    rcases h1 : st.getPrimAtPath p with _ | pr
    · obtain ⟨rk, hrk, hrb, hme, hnc⟩ := hwf
      have hrsome : (resolveFuel (R + 1) st p).isSome := by
        apply resolveFuel_isSome_of_rank hrk R p
        intro qs anc hfa hinst
        obtain ⟨ps, qs2, hp, hq, hpath, hlk, _, _⟩ :=
          findValidAncestorAux_found
            (show findValidAncestorAux st p.size p =
              (SdfPath.abs qs, some anc) from hfa)
        have hq2 : qs2 = qs := SdfPath.abs.inj hq.symm
        rw [hq2] at hlk
        exact hrb (qs, anc.data) (lookupPrim_mem hlk)
      obtain ⟨rOut, h2⟩ := Option.isSome_iff_exists.mp hrsome
      simp only [h2]
      rcases h3 : rOut.result with _ | r
      · exact ⟨⟨none, st, rOut.fatalError, []⟩, rfl, by simp⟩
      · have hrs : rOut.result.isSome := by rw [h3]; rfl
        obtain ⟨q, anc, hfa, hpp, hinst, hmas⟩ :=
          resolveFuel_success_walk h2 hrs h1
        obtain ⟨ps, qs, hp, hq, hpath, hlk, hpre, hlen⟩ :=
          findValidAncestorAux_found
            (show findValidAncestorAux st p.size p = (q, some anc) from hfa)
        subst hp
        simp only [hfa]
        rw [if_pos hpp, if_pos hinst, hpath]
        have hk1 : 1 ≤ k := by
          have hg := hgap qs anc h1 (by rw [← hq]; exact hfa) hinst
          simp [SdfPath.size] at hg
          omega
        have hwf' : WellFormedUpTo (st.setInstanceableFalse qs) R :=
          wellFormed_setInstanceableFalse ⟨rk, hrk, hrb, hme, hnc⟩ qs
        have hself : lookupPrim qs (st.setInstanceableFalse qs).prims =
            some ⟨false, none⟩ :=
          lookupPrim_setInstanceableFalse_self hlk
        obtain ⟨s, hs⟩ := hpre
        have hsne : s ≠ [] := by
          intro hc
          rw [hc, List.append_nil] at hs
          rw [hs] at hlen
          omega
        have hgap' : ∀ qs' anc',
            (st.setInstanceableFalse qs).getPrimAtPath (SdfPath.abs ps) = none →
            findValidAncestor (st.setInstanceableFalse qs) (SdfPath.abs ps) =
              (SdfPath.abs qs', some anc') →
            anc'.data.isInstance = true →
            (SdfPath.abs ps).size ≤ qs'.length + (k - 1) := by
          intro qs' anc' hfast' hfa' hinst'
          have hslen : s.length ≤ (SdfPath.abs (qs ++ s)).size := by
            simp [SdfPath.size]
          obtain ⟨qs0, anc0, hfound0, hbelow0⟩ :=
            findValidAncestorAux_below hself hsne hslen
          have hfound0' : findValidAncestor (st.setInstanceableFalse qs)
              (SdfPath.abs ps) = (SdfPath.abs qs0, some anc0) := by
            rw [← hs]
            exact hfound0
          have heq0 : (SdfPath.abs qs0, some anc0) =
              (SdfPath.abs qs', some anc') := by
            rw [← hfound0', ← hfa']
          have hq0 : qs0 = qs' := SdfPath.abs.inj (congrArg Prod.fst heq0)
          have hbelow' : qs <+: qs' := hq0 ▸ hbelow0
          by_cases hqq : qs' = qs
          · exfalso
            obtain ⟨ps2, qs2, hp2, hq2, hpath2, hlk2, _, _⟩ :=
              findValidAncestorAux_found
                (show findValidAncestorAux (st.setInstanceableFalse qs)
                  (SdfPath.abs ps).size (SdfPath.abs ps) =
                  (SdfPath.abs qs', some anc') from hfa')
            obtain rfl : qs2 = qs' := SdfPath.abs.inj hq2.symm
            rw [hqq] at hlk2
            have hda : anc'.data = ⟨false, none⟩ :=
              Option.some.inj (hlk2.symm.trans hself)
            rw [hda] at hinst'
            simp at hinst'
          · have hlt : qs.length < qs'.length := by
              rcases Nat.lt_or_ge qs.length qs'.length with h4 | h4
              · exact h4
              · exact absurd (hbelow'.eq_of_length_le h4).symm hqq
            have hg := hgap qs anc h1 (by rw [← hq]; exact hfa) hinst
            simp only [SdfPath.size] at hg ⊢
            omega
        obtain ⟨out', hout', hclen'⟩ :=
          ih (k - 1) (by omega) (st.setInstanceableFalse qs)
            (SdfPath.abs ps) u₀ hwf' (by omega) hgap'
        refine ⟨⟨out'.result, out'.stage,
          rOut.fatalError || out'.fatalError, qs :: out'.cleared⟩, ?_, ?_⟩
        · rw [hout']
          rfl
        · simp only [List.length_cons]
          omega
    · exact ⟨⟨some pr, st, false, []⟩, rfl, by simp⟩

lemma rank_lt_of_walk_found {st : UsdStage} {rk : List String → Nat} {R : Nat}
    {p : SdfPath} {qs : List String} {anc : UsdPrim}
    (hrb : RankBound st rk R)
    (hfa : findValidAncestor st p = (SdfPath.abs qs, some anc)) : rk qs < R := by
  obtain ⟨ps, qs2, hp, hq, hpath, hlk, _, _⟩ :=
    findValidAncestorAux_found
      (show findValidAncestorAux st p.size p = (SdfPath.abs qs, some anc) from hfa)
  have hq2 : qs2 = qs := SdfPath.abs.inj hq.symm
  rw [hq2] at hlk
  exact hrb (qs, anc.data) (lookupPrim_mem hlk)

lemma resolve_invalid_of_no_instance_ancestor {st : UsdStage} {p : SdfPath}
    (hfast : st.getPrimAtPath p = none)
    (hanc : ∀ e ∈ st.prims, (SdfPath.abs e.1).isStrictAncestorOf p = true →
      e.2.isInstance = false) :
    ∀ f, resolveFuel (f + 1) st p = some ⟨none, st, false⟩ := by
  intro f
  rw [resolveFuel]
  simp only [hfast]
  rcases hfa : findValidAncestor st p with ⟨vap, va⟩
  rcases va with _ | anc
  · have hnone := findValidAncestorAux_none (Nat.le_refl p.size)
      (show findValidAncestorAux st p.size p = (vap, none) from hfa)
    have hpp : vap.isPrimPath = false := by
      rcases hnone with h | h <;> rw [h] <;> rfl
    simp [hpp]
  · obtain ⟨ps, qs, hp, hq, hpath, hlk, hpre, hlen⟩ :=
      findValidAncestorAux_found
        (show findValidAncestorAux st p.size p = (vap, some anc) from hfa)
    have hstrict : (SdfPath.abs qs).isStrictAncestorOf p = true := by
      rw [hp]
      simp [SdfPath.isStrictAncestorOf, List.isPrefixOf_iff_prefix, hpre, hlen]
    have hinstF : anc.data.isInstance = false :=
      hanc (qs, anc.data) (lookupPrim_mem hlk) hstrict
    by_cases hpp : vap.isPrimPath = true
    · simp [hpp, hinstF]
    · simp [hpp]

/-! ## The claims -/

/-- C1: when the fast path misses and the nearest existing strict ancestor
(found by the parent walk) is an instance prim at a prim path whose master
resolves, `Resolve(stage, path)` equals the recursive call
`Resolve(stage, master.GetPath() + instanceRelPath)` with
`instanceRelPath = path.ReplacePrefix(validAncestorPath,
ReflexiveRelativePath)`. -/
theorem resolve_forwards_through_instance {f : Nat} {st : UsdStage}
    {p q : SdfPath} {anc master : UsdPrim}
    (hfast : st.getPrimAtPath p = none)
    (hfa : findValidAncestor st p = (q, some anc))
    (hpp : q.isPrimPath = true)
    (hinst : anc.data.isInstance = true)
    (hmas : st.getMaster anc = some master) :
    resolveFuel (f + 1) st p =
      resolveFuel f st ((SdfPath.abs master.primPath).appendPath
        (p.replacePrefix q SdfPath.reflexiveRelativePath)) := by
  rw [resolveFuel]
  simp only [hfast, hfa, hmas]
  rw [if_pos hpp, if_pos hinst]

/-- Witness for C1: on `stW1`, resolving `/A/x` forwards through the
instance `/A` to `/M/x`, the same prim `GetPrimAtPath` returns there. -/
theorem resolve_forwards_through_instance_witness :
    stW1.getPrimAtPath pW1 = none ∧
    findValidAncestor stW1 pW1 =
      (SdfPath.abs ["A"], some ⟨["A"], ⟨true, some ["M"]⟩⟩) ∧
    resolveFuel 2 stW1 pW1 = resolveFuel 1 stW1 (SdfPath.abs ["M", "x"]) ∧
    resolveFuel 1 stW1 (SdfPath.abs ["M", "x"]) =
      some ⟨stW1.getPrimAtPath (SdfPath.abs ["M", "x"]), stW1, false⟩ :=
  ⟨by decide, by decide,
    resolve_forwards_through_instance
      (show stW1.getPrimAtPath pW1 = none by decide)
      (show findValidAncestor stW1 pW1 =
        (SdfPath.abs ["A"], some ⟨["A"], ⟨true, some ["M"]⟩⟩) by decide)
      (show (SdfPath.abs ["A"]).isPrimPath = true by decide)
      (show (⟨["A"], ⟨true, some ["M"]⟩⟩ : UsdPrim).data.isInstance = true
        by decide)
      (show stW1.getMaster ⟨["A"], ⟨true, some ["M"]⟩⟩ =
        some ⟨["M"], ⟨false, none⟩⟩ by decide),
    by decide⟩

/-- C2: whenever `Uninstance` returns a valid prim, a direct
`GetPrimAtPath` on the resulting stage returns that very prim (no
forwarding needed), and every ancestor whose instanceable flag the call
cleared is no longer reported as an instance. -/
theorem uninstance_success_resolves_directly {u rf : Nat} {st : UsdStage}
    {p : SdfPath} {out : UninstanceOut} {r : UsdPrim}
    (h : uninstanceFuel u rf st p = some out) (hr : out.result = some r) :
    out.stage.getPrimAtPath p = some r ∧
    ∀ a ∈ out.cleared, ∃ prim,
      out.stage.getPrimAtPath (SdfPath.abs a) = some prim ∧
      prim.data.isInstance = false := by
  obtain ⟨h1, h2⟩ := uninstanceFuel_success_getPrim h hr
  refine ⟨h1, ?_⟩
  intro a ha
  exact ⟨⟨a, ⟨false, none⟩⟩, getPrimAtPath_of_lookup (h2 a ha), rfl⟩

/-- Witness for C2: uninstancing `/A/x` on `stW1` succeeds, afterwards
`/A/x` exists directly and `/A` (the cleared ancestor) is not an
instance. -/
theorem uninstance_success_resolves_directly_witness :
    uninstanceFuel 2 3 stW1 pW1 = some wOut1 ∧
    wOut1.result = some wPrim1 ∧
    (wOut1.stage.getPrimAtPath pW1 = some wPrim1 ∧
      ∀ a ∈ wOut1.cleared, ∃ prim,
        wOut1.stage.getPrimAtPath (SdfPath.abs a) = some prim ∧
        prim.data.isInstance = false) :=
  ⟨by decide, by decide,
    uninstance_success_resolves_directly
      (show uninstanceFuel 2 3 stW1 pW1 = some wOut1 by decide)
      (show wOut1.result = some wPrim1 by decide)⟩

/-- C3: when a prim already exists at the requested path, both the resolver
and the uninstancer return exactly that prim through the fast path, leaving
the stage unchanged and performing no `SetInstanceable` call. -/
theorem fast_path_returns_existing {f u rf : Nat} {st : UsdStage}
    {p : SdfPath} {prim : UsdPrim}
    (h : st.getPrimAtPath p = some prim) :
    resolveFuel (f + 1) st p = some ⟨some prim, st, false⟩ ∧
    uninstanceFuel (u + 1) rf st p = some ⟨some prim, st, false, []⟩ := by
  constructor
  · rw [resolveFuel]
    simp only [h]
  · rw [uninstanceFuel]
    simp only [h]

/-- Witness for C3: `/M/x` exists on `stW1`; both operations return it and
touch nothing. -/
theorem fast_path_returns_existing_witness :
    stW1.getPrimAtPath (SdfPath.abs ["M", "x"]) =
      some ⟨["M", "x"], ⟨false, none⟩⟩ ∧
    (resolveFuel 1 stW1 (SdfPath.abs ["M", "x"]) =
        some ⟨some ⟨["M", "x"], ⟨false, none⟩⟩, stW1, false⟩ ∧
      uninstanceFuel 1 0 stW1 (SdfPath.abs ["M", "x"]) =
        some ⟨some ⟨["M", "x"], ⟨false, none⟩⟩, stW1, false, []⟩) :=
  ⟨by decide, fast_path_returns_existing (by decide)⟩

/-- C4: when no prim exists at the path and every existing strict ancestor
is not an instance, both operations return the invalid prim, the stage is
unchanged, no flag is cleared and no diagnostic fires. -/
theorem no_instancing_miss {f u rf : Nat} {st : UsdStage} {p : SdfPath}
    (hfast : st.getPrimAtPath p = none)
    (hanc : ∀ e ∈ st.prims, (SdfPath.abs e.1).isStrictAncestorOf p = true →
      e.2.isInstance = false) :
    resolveFuel (f + 1) st p = some ⟨none, st, false⟩ ∧
    uninstanceFuel (u + 1) (rf + 1) st p = some ⟨none, st, false, []⟩ := by
  refine ⟨resolve_invalid_of_no_instance_ancestor hfast hanc f, ?_⟩
  rw [uninstanceFuel]
  simp only [hfast, resolve_invalid_of_no_instance_ancestor hfast hanc rf]

/-- Witness for C4: `/B/y` on the instancing-free `stW4`: its only existing
ancestor `/B` is not an instance, so both operations miss cleanly. -/
theorem no_instancing_miss_witness :
    stW4.getPrimAtPath (SdfPath.abs ["B", "y"]) = none ∧
    (∀ e ∈ stW4.prims,
      (SdfPath.abs e.1).isStrictAncestorOf (SdfPath.abs ["B", "y"]) = true →
      e.2.isInstance = false) ∧
    (resolveFuel 1 stW4 (SdfPath.abs ["B", "y"]) =
        some ⟨none, stW4, false⟩ ∧
      uninstanceFuel 1 1 stW4 (SdfPath.abs ["B", "y"]) =
        some ⟨none, stW4, false, []⟩) :=
  ⟨by decide, by decide, no_instancing_miss (by decide) (by decide)⟩

/-- C5: when the nearest existing ancestor is an instance whose master does
not resolve, the resolver records the `TF_VERIFY` internal-consistency
diagnostic (the `fatalError` flag, absent from every not-found outcome)
rather than failing silently, and yields the invalid prim. -/
theorem resolve_fatal_on_missing_master {f : Nat} {st : UsdStage}
    {p q : SdfPath} {anc : UsdPrim}
    (hfast : st.getPrimAtPath p = none)
    (hfa : findValidAncestor st p = (q, some anc))
    (hpp : q.isPrimPath = true)
    (hinst : anc.data.isInstance = true)
    (hmas : st.getMaster anc = none) :
    resolveFuel (f + 1) st p = some ⟨none, st, true⟩ := by
  rw [resolveFuel]
  simp only [hfast, hfa, hmas]
  rw [if_pos hpp, if_pos hinst]

/-- Witness for C5: on `stW5` the instance `/A` names the nonexistent
master `/Z`; resolving `/A/x` fires the diagnostic flag. -/
theorem resolve_fatal_on_missing_master_witness :
    stW5.getPrimAtPath (SdfPath.abs ["A", "x"]) = none ∧
    findValidAncestor stW5 (SdfPath.abs ["A", "x"]) =
      (SdfPath.abs ["A"], some ⟨["A"], ⟨true, some ["Z"]⟩⟩) ∧
    stW5.getMaster ⟨["A"], ⟨true, some ["Z"]⟩⟩ = none ∧
    resolveFuel 1 stW5 (SdfPath.abs ["A", "x"]) = some ⟨none, stW5, true⟩ :=
  ⟨by decide, by decide, by decide,
    resolve_fatal_on_missing_master
      (show stW5.getPrimAtPath (SdfPath.abs ["A", "x"]) = none by decide)
      (show findValidAncestor stW5 (SdfPath.abs ["A", "x"]) =
        (SdfPath.abs ["A"], some ⟨["A"], ⟨true, some ["Z"]⟩⟩) by decide)
      (show (SdfPath.abs ["A"]).isPrimPath = true by decide)
      (show (⟨["A"], ⟨true, some ["Z"]⟩⟩ : UsdPrim).data.isInstance = true
        by decide)
      (show stW5.getMaster ⟨["A"], ⟨true, some ["Z"]⟩⟩ = none by decide)⟩

lemma rankOk_iff_ball (st : UsdStage) (rk : List String → Nat) :
    RankOk st rk ↔ ∀ e ∈ st.prims, e.2.isInstance = true →
      ∀ e' ∈ st.prims, ∀ m ∈ e.2.masterPath, m <+: e'.1 →
        rk e'.1 < rk e.1 := by
  constructor
  · intro h e he hi e' he' m hm hp
    exact h e he hi m (Option.mem_def.mp hm) e' he' hp
  · intro h e he hi m hm e' he' hp
    exact h e he hi e' he' m (Option.mem_def.mpr hm) hp

lemma mastersExist_iff_ball (st : UsdStage) :
    MastersExist st ↔ ∀ e ∈ st.prims, e.2.isInstance = true →
      ∃ m, m ∈ e.2.masterPath ∧ (lookupPrim m st.prims).isSome := by
  constructor
  · intro h e he hi
    obtain ⟨m, hm, d, hd⟩ := h e he hi
    exact ⟨m, Option.mem_def.mpr hm, by rw [hd]; rfl⟩
  · intro h e he hi
    obtain ⟨m, hm, hs⟩ := h e he hi
    rcases hd : lookupPrim m st.prims with _ | d
    · rw [hd] at hs
      simp at hs
    · exact ⟨m, Option.mem_def.mp hm, d, hd⟩

/-- C6: on a well-formed stage (the spec's acyclic "depth of indirection"
invariant, witnessed by a rank function bounded by the nesting depth `R`),
both operations terminate: the resolver needs at most `R + 1` rounds of
forwarding, and the uninstancer returns after at most `size p` rounds,
clearing at most one instanceable flag per round. -/
theorem resolver_and_uninstancer_terminate {R u : Nat} {st : UsdStage}
    {p : SdfPath} (hwf : WellFormedUpTo st R) (hu : p.size < u) :
    (resolveFuel (R + 1) st p).isSome ∧
    ∃ out, uninstanceFuel u (R + 1) st p = some out ∧
      out.cleared.length ≤ p.size := by
  constructor
  · obtain ⟨rk, hrk, hrb, hme, hnc⟩ := hwf
    apply resolveFuel_isSome_of_rank hrk R p
    intro qs anc hfa hinst
    exact rank_lt_of_walk_found hrb hfa
  · apply uninstanceFuel_isSome p.size st p u hwf hu
    intro qs anc hfast hfa hinst
    omega

/-- Witness for C6: `stW1` is well formed up to depth 2 (rank function
`rkW1`), and both operations terminate on `/A/x` within the stated
bounds. -/
theorem resolver_and_uninstancer_terminate_witness :
    WellFormedUpTo stW1 2 ∧ pW1.size < 3 ∧
    ((resolveFuel 3 stW1 pW1).isSome ∧
      ∃ out, uninstanceFuel 3 3 stW1 pW1 = some out ∧
        out.cleared.length ≤ pW1.size) :=
  ⟨⟨rkW1, (rankOk_iff_ball stW1 rkW1).mpr (by decide),
      by unfold RankBound; decide,
      (mastersExist_iff_ball stW1).mpr (by decide),
      by unfold NoContentUnderInstances; decide⟩,
    by decide,
    resolver_and_uninstancer_terminate
      (show WellFormedUpTo stW1 2 from
        ⟨rkW1, (rankOk_iff_ball stW1 rkW1).mpr (by decide),
          by unfold RankBound; decide,
          (mastersExist_iff_ball stW1).mpr (by decide),
          by unfold NoContentUnderInstances; decide⟩)
      (show pW1.size < 3 by decide)⟩

/-- C7: uninstancing is idempotent — after a successful call, a second call
on the resulting stage with the same path returns the same prim through the
fast path, with no further mutation, no cleared flag and no diagnostic. -/
theorem uninstance_idempotent {u rf uB rfB : Nat} {st : UsdStage}
    {p : SdfPath} {out : UninstanceOut} {r : UsdPrim}
    (h : uninstanceFuel u rf st p = some out) (hr : out.result = some r) :
    uninstanceFuel (uB + 1) rfB out.stage p =
      some ⟨some r, out.stage, false, []⟩ := by
  obtain ⟨h1, _⟩ := uninstanceFuel_success_getPrim h hr
  rw [uninstanceFuel]
  simp only [h1]

/-- Witness for C7: after uninstancing `/A/x` on `stW1`, a second call on
the mutated stage returns the same prim via the fast path. -/
theorem uninstance_idempotent_witness :
    uninstanceFuel 2 3 stW1 pW1 = some wOut1 ∧
    wOut1.result = some wPrim1 ∧
    uninstanceFuel 1 0 wOut1.stage pW1 =
      some ⟨some wPrim1, wOut1.stage, false, []⟩ :=
  ⟨by decide, by decide,
    uninstance_idempotent
      (show uninstanceFuel 2 3 stW1 pW1 = some wOut1 by decide)
      (show wOut1.result = some wPrim1 by decide)⟩

/-- C8: in the uninstancer, once the fast path has failed and the embedded
resolver succeeded, the re-walked nearest existing ancestor is necessarily
an instance at a prim path, so the `TF_VERIFY(validAncestor.IsInstance())`
assertion holds and its failure branch is unreachable. -/
theorem uninstance_walk_ancestor_is_instance {rf : Nat} {st : UsdStage}
    {p : SdfPath} {rOut : ResolveOut} {r : UsdPrim}
    (hfast : st.getPrimAtPath p = none)
    (h : resolveFuel rf st p = some rOut) (hr : rOut.result = some r) :
    ∃ q anc, findValidAncestor st p = (q, some anc) ∧
      q.isPrimPath = true ∧ anc.data.isInstance = true := by
  obtain ⟨q, anc, hfa, hpp, hinst, _⟩ :=
    resolveFuel_success_walk h (by rw [hr]; rfl) hfast
  exact ⟨q, anc, hfa, hpp, hinst⟩

/-- Witness for C8: on `stW1` with `/A/x`, the resolver succeeds and the
walked ancestor `/A` is indeed an instance at a prim path. -/
theorem uninstance_walk_ancestor_is_instance_witness :
    stW1.getPrimAtPath pW1 = none ∧
    resolveFuel 2 stW1 pW1 = some wROut1 ∧
    wROut1.result = some ⟨["M", "x"], ⟨false, none⟩⟩ ∧
    (∃ q anc, findValidAncestor stW1 pW1 = (q, some anc) ∧
      q.isPrimPath = true ∧ anc.data.isInstance = true) :=
  ⟨by decide, by decide, by decide,
    uninstance_walk_ancestor_is_instance
      (show stW1.getPrimAtPath pW1 = none by decide)
      (show resolveFuel 2 stW1 pW1 = some wROut1 by decide)
      (show wROut1.result = some ⟨["M", "x"], ⟨false, none⟩⟩ by decide)⟩

/-- C9: the resolver is a pure query — whatever it returns, the stage it
hands back is the very stage it was given (it never calls
`SetInstanceable`), and the not-found outcome is the invalid-prim value,
not an exception. -/
theorem resolve_is_pure {f : Nat} {st : UsdStage} {p : SdfPath}
    {out : ResolveOut} (h : resolveFuel f st p = some out) :
    out.stage = st :=
  resolveFuel_stage_eq h

/-- Witness for C9: resolving `/A/x` on `stW1` leaves the stage
untouched. -/
theorem resolve_is_pure_witness :
    resolveFuel 2 stW1 pW1 = some wROut1 ∧ wROut1.stage = stW1 :=
  ⟨by decide,
    resolve_is_pure (show resolveFuel 2 stW1 pW1 = some wROut1 by decide)⟩

/-- C10: whenever the walk finds a valid ancestor (the state in which the
resolver reaches its `ReplacePrefix` call), the ancestor path is a proper
prefix of the target path, so the suffix is nonempty, `ReplacePrefix`
really strips a prefix, and appending the suffix to the ancestor path
recovers the target. -/
theorem walk_ancestor_proper_prefix {st : UsdStage} {p q : SdfPath}
    {anc : UsdPrim} (_hfast : st.getPrimAtPath p = none)
    (hfa : findValidAncestor st p = (q, some anc)) :
    q.isStrictAncestorOf p = true ∧
    ∃ s, s ≠ [] ∧
      p.replacePrefix q SdfPath.reflexiveRelativePath = SdfPath.rel s ∧
      q.appendPath (SdfPath.rel s) = p := by
  obtain ⟨ps, qs, hp, hq, hpath, hlk, hpre, hlen⟩ :=
    findValidAncestorAux_found
      (show findValidAncestorAux st p.size p = (q, some anc) from hfa)
  subst hp
  subst hq
  constructor
  · simp [SdfPath.isStrictAncestorOf, List.isPrefixOf_iff_prefix, hpre, hlen]
  · refine ⟨ps.drop qs.length, ?_, ?_, ?_⟩
    · intro hc
      have := congrArg List.length hc
      simp [List.length_drop] at this
      omega
    · have hb : qs.isPrefixOf ps = true := List.isPrefixOf_iff_prefix.mpr hpre
      simp [SdfPath.replacePrefix, SdfPath.reflexiveRelativePath, hb]
    · obtain ⟨s, hs⟩ := hpre
      have hdrop : ps.drop qs.length = s := by
        rw [← hs, List.drop_left]
      rw [hdrop, ← hs]
      rfl

/-- Witness for C10: for `/A/x` on `stW1` the found ancestor `/A` strictly
prefixes the path and the suffix is `x`. -/
theorem walk_ancestor_proper_prefix_witness :
    stW1.getPrimAtPath pW1 = none ∧
    findValidAncestor stW1 pW1 =
      (SdfPath.abs ["A"], some ⟨["A"], ⟨true, some ["M"]⟩⟩) ∧
    ((SdfPath.abs ["A"]).isStrictAncestorOf pW1 = true ∧
      ∃ s, s ≠ [] ∧
        pW1.replacePrefix (SdfPath.abs ["A"]) SdfPath.reflexiveRelativePath =
          SdfPath.rel s ∧
        (SdfPath.abs ["A"]).appendPath (SdfPath.rel s) = pW1) :=
  ⟨by decide, by decide,
    walk_ancestor_proper_prefix
      (show stW1.getPrimAtPath pW1 = none by decide)
      (show findValidAncestor stW1 pW1 =
        (SdfPath.abs ["A"], some ⟨["A"], ⟨true, some ["M"]⟩⟩) by decide)⟩
